import Mathlib

/-!
Verification development for the schedule scraper in src/scrape-schedule.js.

The JavaScript source is shallowly embedded below: strings are lists of
characters, JavaScript objects keyed by strings are association lists with
in-place-update insertion, and the regex-based text transformations of the
scraper are embedded as structural scanners that reproduce the regex engine's
left-to-right non-overlapping behaviour. Numbers that are always integral in
the source (timestamps from Date.now(), parsed hours) are Nat or Int.
Floating-point coordinates and the external collaborators (page fetching,
geocoding, the file system) are outside the embedded core, exactly as the
specification's section 1 excludes them; the file-loading logic of
getPreviousTimes and getPreviousSchedule is embedded as an explicit
promise-settlement model because its control flow is part of the spec.
-/

set_option maxRecDepth 16384

namespace Scrape

/-- Whitespace as matched by the JavaScript regex class for whitespace and by
String.prototype.trim, restricted to the characters that occur in the data. -/
def isWs (c : Char) : Bool :=
  c = ' ' || c = '\n' || c = '\t' || c = '\r'

/-- String.prototype.trim on a character list. -/
def trimChars (l : List Char) : List Char :=
  ((l.dropWhile isWs).reverse.dropWhile isWs).reverse

/-- String.prototype.trim. -/
def jsTrim (s : String) : String :=
  String.mk (trimChars s.data)

/-- Scanner state machine for the replacement of every whitespace run by a
single space, as in the source's whitespace-collapsing replace call
(lines 341 and 345). The flag records a pending unemitted run. -/
def collapseWsGo : Bool → List Char → List Char
  | false, [] => []
  | true, [] => [' ']
  | inRun, c :: rest =>
    if isWs c then collapseWsGo true rest
    else if inRun then ' ' :: c :: collapseWsGo false rest
    else c :: collapseWsGo false rest

/-- The source's replace of whitespace runs by a single space. -/
def collapseWs (s : String) : String :=
  String.mk (collapseWsGo false s.data)

/-- Whether pat occurs as a contiguous block, as String.prototype.includes. -/
def containsTok (pat : List Char) : List Char → Bool
  | [] => pat.isEmpty
  | c :: rest => pat.isPrefixOf (c :: rest) || containsTok pat rest

/-- String.prototype.indexOf: index of the first occurrence of pat, -1 if none. -/
def idxOfTok (pat : List Char) : List Char → Int
  | [] => if pat.isEmpty then 0 else -1
  | c :: rest =>
    if pat.isPrefixOf (c :: rest) then 0
    else
      let r := idxOfTok pat rest
      if r < 0 then -1 else r + 1

/-- Leading decimal-digit run with its value and the remaining characters. -/
def digitsGo (acc : Nat) : List Char → Nat × List Char
  | [] => (acc, [])
  | c :: rest =>
    if c.isDigit then digitsGo (acc * 10 + (c.toNat - 48)) rest
    else (acc, c :: rest)

/-- Parse a leading unsigned integer; none when the first character is not a
digit. Returns the value and the rest of the input. -/
def parseNatPre (l : List Char) : Option (Nat × List Char) :=
  match l with
  | c :: _ => if c.isDigit then some (digitsGo 0 l) else none
  | [] => none

/-- JavaScript parseInt restricted to decimal inputs: skip leading whitespace,
allow one sign, then require a digit; none models NaN. -/
def parseIntLead (l : List Char) : Option Int :=
  match l.dropWhile isWs with
  | '-' :: rest => (parseNatPre rest).map (fun p => -(p.1 : Int))
  | '+' :: rest => (parseNatPre rest).map (fun p => (p.1 : Int))
  | l2 => (parseNatPre l2).map (fun p => (p.1 : Int))

/-- The four characters replaced by the noon substitution. -/
def noonPat : List Char := ['n', 'o', 'o', 'n']

/-- The source's global replace of the word noon by 12 pm (line 354),
scanning left to right without overlap, as the regex engine does. When the
pattern matches at the current position the scan resumes after it, else it
advances one character. The inner match fallback is unreachable: a match of
the four-character pattern forces at least three more characters. -/
def replaceNoon : List Char → List Char
  | 'n' :: 'o' :: 'o' :: 'n' :: rest => '1' :: '2' :: ' ' :: 'p' :: 'm' :: replaceNoon rest
  | c :: rest => c :: replaceNoon rest
  | [] => []

/-- The source's replace of the en dash by a plain hyphen (line 355). -/
def endashFix (c : Char) : Char :=
  if c = '–' then '-' else c

/-- The source's replace inserting spaces around a hyphen flanked by two
non-space characters (line 356). On a match the scan resumes after the
matched three characters; on a failed match it advances one character,
exactly as the regex engine scans. -/
def spaceDashes : List Char → List Char
  | x :: '-' :: y :: rest =>
    if x ≠ ' ' && y ≠ ' ' then x :: ' ' :: '-' :: ' ' :: y :: spaceDashes rest
    else x :: spaceDashes ('-' :: y :: rest)
  | x :: rest => x :: spaceDashes rest
  | [] => []

/-- Splitter for the source's split on a comma or a newline run (line 357).
The regex has a capture group, so JavaScript split interleaves the matched
separators with the pieces; piece accumulates the current piece reversed and
run accumulates a pending newline run reversed. -/
def skGo (piece run : List Char) : List Char → List (List Char)
  | [] =>
    if run.isEmpty then [piece.reverse]
    else [piece.reverse, run.reverse, []]
  | c :: rest =>
    if c = '\n' then skGo piece ('\n' :: run) rest
    else if run.isEmpty then
      if c = ',' then piece.reverse :: [','] :: skGo [] [] rest
      else skGo (c :: piece) run rest
    else
      if c = ',' then piece.reverse :: run.reverse :: [] :: [','] :: skGo [] [] rest
      else piece.reverse :: run.reverse :: skGo [c] [] rest

/-- Split on a comma or a newline run, keeping the separators. -/
def splitTimes (l : List Char) : List (List Char) :=
  skGo [] [] l

/-- Lines 351 to 356 of the source: lowercase the cell text, replace noon,
replace the en dash, and space out unspaced hyphens. -/
def normalizeText (s : String) : List Char :=
  spaceDashes ((replaceNoon (s.data.map Char.toLower)).map endashFix)

/-- The candidate tokens of a cell: normalized text split with separators
kept, each candidate trimmed (lines 357 and 358). -/
def tokenCandidates (s : String) : List String :=
  (splitTimes (normalizeText s)).map (fun t => String.mk (trimChars t))

/-- The Time Token Parser (lines 351 to 359): candidates whose leading text
parses as an integer; the parseInt test discards separators, blanks and
stray header text. -/
def parseTokens (s : String) : List String :=
  (tokenCandidates s).filter (fun t => (parseIntLead t.data).isSome)

/-- The evenings-and-weekends filter of the source (lines 99 to 107). The day
may be the undefined value, which JavaScript coerces to the string undefined
before the regex test. -/
def eveningsAndWeekends (day : Option String) (time : String) : Bool :=
  let d := (day.getD "undefined").data.map Char.toLower
  if containsTok ['s', 'a', 't'] d || containsTok ['s', 'u', 'n'] d then true
  else if !containsTok ['p', 'm'] time.data then false
  else
    match parseIntLead time.data with
    | some n => decide (n ≠ 12 ∧ 5 ≤ n ∧ n < 10)
    | none => false

/-- The canonical Monday-first day list of the source (lines 35 to 43). -/
def defaultDays : List String :=
  ["Monday", "Tuesday", "Wednesday", "Thursday", "Friday", "Saturday", "Sunday"]

/-- The Day-Column Resolver, getDays in the source (lines 321 to 334): prefer
the header cells when their concatenated text contains Monday, else the first
body row, else the default days; the chosen row's cell texts are trimmed and
blanks removed. -/
def getDays (theadCells firstRowCells : List String) : List String :=
  let mon := ['M', 'o', 'n', 'd', 'a', 'y']
  if containsTok mon (String.join theadCells).data then
    (theadCells.map jsTrim).filter (fun x => x != "")
  else if containsTok mon (String.join firstRowCells).data then
    (firstRowCells.map jsTrim).filter (fun x => x != "")
  else defaultDays

/-- JavaScript array indexing with a possibly negative index: days at
actualIndex, undefined (none) when out of range. -/
def dayAt (days : List String) (i : Int) : Option String :=
  if i < 0 then none else days[i.toNat]?

/-- The column-to-day alignment of the source (line 350): the data-cell index
minus zero when the row has a header cell and minus one otherwise. -/
def cellDay (activityIsHead : Bool) (days : List String) (index : Nat) : Option String :=
  dayAt days ((index : Int) - (if activityIsHead then 0 else 1))

/-- Lines 347 to 364 of the source: each td cell is mapped to its aligned day
and its parsed, optionally evenings-and-weekends-filtered, schedule tokens. -/
def rawSchedules (activityIsHead : Bool) (days : List String) (tds : List String)
    (eFlag : Bool) : List (Option String × List String) :=
  tds.enum.map (fun p =>
    let day := cellDay activityIsHead days p.1
    (day, (parseTokens p.2).filter (fun t => if eFlag then eveningsAndWeekends day t else true)))

/-- Association-list lookup, modelling JavaScript object property access. -/
def lookupAssoc {β : Type} : List (String × β) → String → Option β
  | [], _ => none
  | (k, v) :: rest, key => if k = key then some v else lookupAssoc rest key

/-- Association-list update, modelling JavaScript object property assignment:
an existing key keeps its position and gets the new value, a new key is
appended. -/
def insertAssoc {β : Type} : List (String × β) → String → β → List (String × β)
  | [], key, v => [(key, v)]
  | (k, w) :: rest, key, v =>
    if k = key then (k, v) :: rest else (k, w) :: insertAssoc rest key v

/-- The caption keywords of CAPTION_REGEX (lines 45 and 46), lowercased; the
regex is case-insensitive and has no word boundaries. -/
def captionKeywords : List (List Char) :=
  [['s','t','a','r','t','i','n','g'], ['u','n','t','i','l'],
   ['j','a','n','u','a','r','y'], ['f','e','b','r','u','a','r','y'],
   ['m','a','r','c','h'], ['a','p','r','i','l'], ['m','a','y'],
   ['j','u','n','e'], ['j','u','l','y'], ['a','u','g','u','s','t'],
   ['s','e','p','t','e','m','b','e','r'], ['o','c','t','o','b','e','r'],
   ['n','o','v','e','m','b','e','r'], ['d','e','c','e','m','b','e','r']]

/-- First index at which one of the keywords starts, -1 when none does. -/
def searchIdx (kws : List (List Char)) : List Char → Int
  | [] => -1
  | c :: rest =>
    if kws.any (fun k => k.isPrefixOf (c :: rest)) then 0
    else
      let r := searchIdx kws rest
      if r < 0 then -1 else r + 1

/-- String.prototype.search with CAPTION_REGEX: case-insensitive, so the
search runs on the lowercased text; toLower is a per-character map, so
indices in the original string agree. -/
def captionSearch (s : String) : Int :=
  searchIdx captionKeywords (s.data.map Char.toLower)

/-- String.prototype.slice(0, i): a negative i counts from the end of the
string; the result is clamped to the string. -/
def sliceTo (s : String) (i : Int) : String :=
  let n : Int := s.data.length
  let e := if i < 0 then n + i else i
  let e := if e < 0 then 0 else e
  String.mk (s.data.take e.toNat)

/-- String.prototype.slice(i) for a non-negative i. -/
def sliceFrom (s : String) (i : Int) : String :=
  String.mk (s.data.drop i.toNat)

/-- Lines 479 and 480 of the source: the location base name used in novelty
keys is locationName.slice(0, locationName.search(CAPTION_REGEX)).trim().
When the search finds no keyword it returns -1 and slice(0, -1) drops the
final character of the name. -/
def baseName (locationName : String) : String :=
  jsTrim (sliceTo locationName (captionSearch locationName))

/-- The substring of pat-free text before the first occurrence of pat. -/
def beforeTok (pat : List Char) : List Char → List Char
  | [] => []
  | c :: rest => if pat.isPrefixOf (c :: rest) then [] else c :: beforeTok pat rest

/-- Line 486 of the source: time.split(open parenthesis preceded by a
space)[0], the time range with its activity suffix stripped. -/
def splitActivity (time : String) : String :=
  String.mk (beforeTok [' ', '('] time.data)

/-- An activity row as produced by the per-row extraction in main
(lines 371 to 378). Coordinates are omitted: they come from the excluded
geocode collaborator and no claim concerns them. -/
structure ActivityResult where
  location : String
  link : String
  home : String
  address : String
  activity : String
  schedules : List (String × List String)
  deriving DecidableEq, Repr

/-- The caption extraction (lines 336 to 340): keep the caption text from the
first keyword match on, or none when no keyword matches. -/
def extractCaption (captionText : String) : Option String :=
  if captionSearch captionText ≥ 0 then some (sliceFrom captionText (captionSearch captionText))
  else none

/-- Line 372: [location, caption].filter(x).join(space). -/
def joinLoc (location : String) (caption : Option String) : String :=
  String.intercalate " " (([some location, caption].filterMap id).filter (fun s => s != ""))

/-- The Activity Row Extractor: the body of the per-row map in main
(lines 319 to 379). The DOM inputs are passed explicitly: the header-cell
texts and first-body-row texts of the enclosing table, the caption text, the
page-level location and metadata strings, the concatenated th text of the
row, and the td texts of the row. -/
def extractRow (theadCells firstRowCells : List String) (captionText : String)
    (location link home address : String) (thText : String) (tds : List String)
    (eFlag : Bool) : ActivityResult :=
  let days := getDays theadCells firstRowCells
  let caption := extractCaption captionText
  let headName := collapseWs thText
  let activityIsHead := headName != ""
  let activity := if activityIsHead then headName else collapseWs ((tds[0]?).getD "")
  let schedules := (rawSchedules activityIsHead days tds eFlag).foldl
    (fun result p =>
      if p.2.isEmpty then result else insertAssoc result ((p.1).getD "undefined") p.2) []
  { location := joinLoc location caption, link := link, home := home, address := address,
    activity := activity, schedules := schedules }

/-- Split on any dash (hyphen or en dash), separators not kept: the split in
getTime (line 414). -/
def sdGo (piece : List Char) : List Char → List (List Char)
  | [] => [piece.reverse]
  | c :: rest =>
    if c = '-' || c = '–' then piece.reverse :: sdGo [] rest
    else sdGo (c :: piece) rest

/-- The dash split of getTime. -/
def splitOnDashes (l : List Char) : List (List Char) :=
  sdGo [] l

/-- The moment(text, [h:mm a, h a]) parse used by getTime, modelled on the
strings the scraper feeds it: optional whitespace, an hour on the 12-hour
clock, optional colon and minutes, optional whitespace, then am or pm;
trailing text is ignored, as moment's forgiving parser ignores it. The
result is minutes after midnight; none models an invalid moment. -/
def parseMoment (l : List Char) : Option Nat :=
  match parseNatPre (l.dropWhile isWs) with
  | none => none
  | some (h, rest) =>
    let mrest : Nat × List Char :=
      match rest with
      | ':' :: r2 =>
        match parseNatPre r2 with
        | some (m, r3) => (m, r3)
        | none => (0, ':' :: r2)
      | _ => (0, rest)
    let after := mrest.2.dropWhile isWs
    if ['a', 'm'].isPrefixOf after then some ((h % 12) * 60 + mrest.1)
    else if ['p', 'm'].isPrefixOf after then some (((h % 12) + 12) * 60 + mrest.1)
    else none

/-- getTime in the source (lines 411 to 418): split the labeled range on
dashes, take the part after the first dash, cut it at an index computed from
indexOf am and indexOf pm plus two measured on the whole string, trim, and
parse as a 12-hour clock time. The part taken is the end time of the range.
A missing dash makes the JavaScript throw; here it is none, and every claim
that touches ordering assumes parseable ranges. -/
def getTime (x : String) : Option Nat :=
  match (splitOnDashes x.data)[1]? with
  | none => none
  | some p1 =>
    let cut : Int := max (idxOfTok ['a', 'm'] x.data) (idxOfTok ['p', 'm'] x.data + 2)
    let e := if cut < 0 then 0 else cut.toNat
    parseMoment (trimChars (p1.take e))

/-- The sort comparator of the day schedule (lines 410 to 420): getTime a
minus getTime b. A NaN comparator value is treated as zero by the sort, so
two values with an unparseable side compare as equal. -/
def timeLe (a b : String) : Bool :=
  match getTime a, getTime b with
  | some x, some y => decide (x ≤ y)
  | _, _ => true

/-- Stable insertion: the new element goes after every element less than or
equal to it, modelling the stable ascending sort of Array.prototype.sort. -/
def insertTime (x : String) : List String → List String
  | [] => [x]
  | y :: ys => if timeLe y x then y :: insertTime x ys else x :: y :: ys

/-- Array.prototype.sort with the getTime comparator, modelled as a stable
insertion sort; for a consistent comparator this is the sort's specified
result. -/
def sortTimes (l : List String) : List String :=
  l.foldl (fun acc x => insertTime x acc) []

/-- The colon-spacing fix of line 405: replace optionally-spaced colons by a
bare colon, scanning as the regex engine does. -/
def colonFix : List Char → List Char
  | ' ' :: ':' :: ' ' :: rest => ':' :: colonFix rest
  | ' ' :: ':' :: rest => ':' :: colonFix rest
  | ':' :: ' ' :: rest => ':' :: colonFix rest
  | ':' :: rest => ':' :: colonFix rest
  | c :: rest => c :: colonFix rest
  | [] => []

/-- Lines 403 to 409: a time range labeled with its activity name, the colon
spacing fixed and the activity trimmed. -/
def labelTime (activity : String) (time : String) : String :=
  String.mk (colonFix time.data) ++ " (" ++ jsTrim activity ++ ")"

/-- One merged location entry of resultsByLocation (lines 393 to 398 and
421 to 425): the metadata fields plus the per-day schedule lists. -/
structure LocEntry where
  link : String
  home : String
  address : String
  sched : List (String × List String)
  deriving DecidableEq, Repr

/-- The un-sorted input of one day's schedule in the aggregation step
(lines 400 to 409): entries already aggregated for the location and day,
followed by the newly labeled ranges of the current activity row. -/
def dayInput (acc : List (String × LocEntry)) (a : ActivityResult) (day : String) :
    List String :=
  ((lookupAssoc acc a.location).map (fun e => (lookupAssoc e.sched day).getD [])).getD []
    ++ ((lookupAssoc a.schedules day).getD []).map (labelTime a.activity)

/-- One day's schedule list in the aggregation step: the concatenation
sorted by the getTime comparator (lines 400 to 420). -/
def dayScheduleFor (acc : List (String × LocEntry)) (a : ActivityResult) (day : String) :
    List String :=
  sortTimes (dayInput acc a day)

/-- One step of the resultsByLocation reduce (lines 392 to 426): a fresh
location object with the current row's metadata, the day lists recomputed
for each canonical day and empty days omitted, assigned into the
accumulator. -/
def aggregateStep (acc : List (String × LocEntry)) (a : ActivityResult) :
    List (String × LocEntry) :=
  insertAssoc acc a.location
    { link := a.link, home := a.home, address := a.address,
      sched := defaultDays.filterMap (fun day =>
        let ds := dayScheduleFor acc a day
        if ds.isEmpty then none else some (day, ds)) }

/-- The Location Aggregator: the results.reduce of the source
(lines 392 to 427). -/
def aggregate (results : List ActivityResult) : List (String × LocEntry) :=
  results.foldl aggregateStep []

/-- The carry-forward value of one novelty key (line 488):
previous[key] or else Date.now(); a zero timestamp is falsy in JavaScript,
so it is replaced by now just as a missing key is. -/
def olderVal (previous : List (String × Nat)) (key : String) (now : Nat) : Nat :=
  match lookupAssoc previous key with
  | some v => if v = 0 then now else v
  | none => now

/-- The Novelty Tracker, buildDateTable in the source (lines 476 to 494).
The current table maps location names to day-keyed lists of labeled ranges;
now stands for Date.now(). -/
def buildDateTable (previous : List (String × Nat))
    (current : List (String × List (String × List String))) (now : Nat) :
    List (String × Nat) :=
  current.foldl (fun result entry =>
    let name := baseName entry.1
    defaultDays.foldl (fun result day =>
      match lookupAssoc entry.2 day with
      | none => result
      | some times =>
        times.foldl (fun result time =>
          let key := name ++ "|" ++ day ++ "|" ++ splitActivity time
          insertAssoc result key (olderVal previous key now)) result) result) []

/-- The novelty keys contributed by one day of one location, in the order
buildDateTable visits them. -/
def dayKeys (name day : String) (times : Option (List String)) : List String :=
  match times with
  | none => []
  | some ts => ts.map (fun time => name ++ "|" ++ day ++ "|" ++ splitActivity time)

/-- The novelty keys contributed by one location entry, in visit order. -/
def entryKeys (entry : String × List (String × List String)) : List String :=
  defaultDays.foldr (fun day acc => dayKeys (baseName entry.1) day (lookupAssoc entry.2 day) ++ acc) []

/-- All novelty keys derivable from the current table, in the order
buildDateTable visits them. -/
def derivedKeys (current : List (String × List (String × List String))) : List String :=
  current.foldr (fun entry acc => entryKeys entry ++ acc) []

/-- A settlement operation on a JavaScript promise. -/
inductive JsSettle (α : Type) where
  | resolvedWith : α → JsSettle α
  | rejectedErr : JsSettle α
  deriving DecidableEq, Repr

/-- A promise settles once: the first settlement operation wins and later
ones are ignored. -/
def promiseOutcome {α : Type} (ops : List (JsSettle α)) : Option (JsSettle α) :=
  ops.head?

/-- The readFile callback shared by getPreviousTimes and getPreviousSchedule
(lines 48 to 71), as the list of settlement operations it attempts in order.
readResult is none when readFile reports an error (missing file) and some
data otherwise. On an error the callback calls reject without returning,
then still reaches the resolve: data is undefined, data-or-else picks the
empty-object text, and JSON.parse succeeds, but the promise is already
rejected. On unparseable data JSON.parse throws and the catch resolves with
an empty table. The parse function stands for JSON.parse returning the
expected table shape, none for a parse error. -/
def readCacheSettleOps {α : Type} (parse : String → Option α) (emptyVal : α)
    (readResult : Option String) : List (JsSettle α) :=
  (match readResult with
   | none => [JsSettle.rejectedErr]
   | some _ => [])
  ++
  (let data := readResult.getD ""
   let text := if data = "" then "\x7b\x7d" else data
   match parse text with
   | some v => [JsSettle.resolvedWith v]
   | none => [JsSettle.resolvedWith emptyVal])

/-- getPreviousTimes (lines 48 to 59): the settled outcome of loading the
persisted novelty table. -/
def getPreviousTimes (parse : String → Option (List (String × Nat)))
    (readResult : Option String) : Option (JsSettle (List (String × Nat))) :=
  promiseOutcome (readCacheSettleOps parse [] readResult)

/-- getPreviousSchedule (lines 60 to 71): the settled outcome of loading the
persisted schedule. -/
def getPreviousSchedule (parse : String → Option (List (String × LocEntry)))
    (readResult : Option String) : Option (JsSettle (List (String × LocEntry))) :=
  promiseOutcome (readCacheSettleOps parse [] readResult)

/-- Follows the words of claim C5, not the source: data cell at index i
aligned to day label index i minus one when the row begins with a header
cell, and to day label index i when it does not. Compared against
rawSchedules. -/
def claimC5Schedules (activityIsHead : Bool) (days : List String) (tds : List String)
    (eFlag : Bool) : List (Option String × List String) :=
  tds.enum.map (fun p =>
    let day := if activityIsHead then dayAt days ((p.1 : Int) - 1) else dayAt days (p.1 : Int)
    (day, (parseTokens p.2).filter (fun t => if eFlag then eveningsAndWeekends day t else true)))

/-- The amendment of claim C5, written independently of cellDay: offset zero
when the row begins with a header cell, offset minus one when it does not. -/
def amendedC5Schedules (activityIsHead : Bool) (days : List String) (tds : List String)
    (eFlag : Bool) : List (Option String × List String) :=
  tds.enum.map (fun p =>
    let day := if activityIsHead then dayAt days (p.1 : Int) else dayAt days ((p.1 : Int) - 1)
    (day, (parseTokens p.2).filter (fun t => if eFlag then eveningsAndWeekends day t else true)))

/-- Follows the words of claim C3 and spec section 4.4, not the source: the
chronological start time of a labeled range in minutes after midnight, the
substring before the dash parsed as hour and optional minutes, the meridiem
read from the range text. -/
def specStartKey (x : String) : Option Nat :=
  match splitOnDashes x.data with
  | start :: _ =>
    (match parseNatPre (trimChars start) with
     | some (h, rest) =>
       let mm : Nat :=
         match rest with
         | ':' :: r2 => ((parseNatPre r2).map Prod.fst).getD 0
         | _ => 0
       some (((h % 12) + (if containsTok ['p', 'm'] x.data then 12 else 0)) * 60 + mm)
     | none => none)
  | [] => none

/-- The token text 12 pm produced by the noon replacement. -/
def twelvePmPat : List Char := ['1', '2', ' ', 'p', 'm']

/-- A concrete activity row whose two Monday ranges order differently by
start time and by end time. -/
def yogaRow : ActivityResult :=
  { location := "A", link := "", home := "", address := "", activity := "Yoga",
    schedules := [("Monday", ["9 - 11 am", "10 - 10:30 am"])] }

/-- Claim C2 is wrong on the code: for a location name containing no caption
keyword, search returns -1 and slice(0, -1) drops the final character, so
the base name is not the unchanged location name. With a keyword the prefix
before the match is kept as claimed. -/
theorem C2_eval :
    captionSearch "Heron Road Community Centre" = -1
    ∧ baseName "Heron Road Community Centre" = "Heron Road Community Centr"
    ∧ baseName "Gym starting September 2024" = "Gym" := by
  refine ⟨by decide, by decide, by decide⟩

/-- Counterexample to claim C1 as stated: a key present in the previous
table with timestamp 0 and derivable from the current schedule does not keep
its timestamp; the JavaScript or-else treats 0 as falsy and restamps it with
the current time. -/
theorem C1_counterexample :
    lookupAssoc [("Gy|Monday|1 - 2pm", 0)] "Gy|Monday|1 - 2pm" = some 0
    ∧ "Gy|Monday|1 - 2pm" ∈ derivedKeys [("Gym", [("Monday", ["1 - 2pm (Yoga)"])])]
    ∧ buildDateTable [("Gy|Monday|1 - 2pm", 0)] [("Gym", [("Monday", ["1 - 2pm (Yoga)"])])] 5
        = [("Gy|Monday|1 - 2pm", 5)] := by
  refine ⟨by decide, by decide, by decide⟩

/-- Counterexample to claim C5 as stated: with a header cell the extractor
aligns data cell 0 to day label 0, not to day label -1; the claimed
alignment would attach 1 - 2pm to no day and 3 - 4:30pm to Monday. -/
theorem C5_counterexample :
    rawSchedules true ["Monday", "Tuesday"] ["1-2pm", "3-4:30pm"] false
      = [(some "Monday", ["1 - 2pm"]), (some "Tuesday", ["3 - 4:30pm"])]
    ∧ claimC5Schedules true ["Monday", "Tuesday"] ["1-2pm", "3-4:30pm"] false
      = [(none, ["1 - 2pm"]), (some "Monday", ["3 - 4:30pm"])]
    ∧ rawSchedules true ["Monday", "Tuesday"] ["1-2pm", "3-4:30pm"] false
      ≠ claimC5Schedules true ["Monday", "Tuesday"] ["1-2pm", "3-4:30pm"] false := by
  refine ⟨by decide, by decide, by decide⟩

/-- Claim C5 amended and proved: the extractor's column alignment offsets the
data-cell index by zero when the row begins with a header cell and by minus
one when it does not. -/
theorem C5_amended (activityIsHead : Bool) (days tds : List String) (eFlag : Bool) :
    rawSchedules activityIsHead days tds eFlag
      = amendedC5Schedules activityIsHead days tds eFlag := by
  unfold rawSchedules amendedC5Schedules cellDay
  cases activityIsHead <;> simp

/-- Claim C6 confirmed: the header Monday, Tuesday with a header-celled row
Pickleball, 1-2pm, 3-4:30pm extracts activity Pickleball and the day map
Monday to 1 - 2pm and Tuesday to 3 - 4:30pm. -/
theorem C6_scenario :
    (extractRow ["Monday", "Tuesday"] [] "" "Loc" "" "" "" "Pickleball"
      ["1-2pm", "3-4:30pm"] false).activity = "Pickleball"
    ∧ (extractRow ["Monday", "Tuesday"] [] "" "Loc" "" "" "" "Pickleball"
      ["1-2pm", "3-4:30pm"] false).schedules
        = [("Monday", ["1 - 2pm"]), ("Tuesday", ["3 - 4:30pm"])] := by
  refine ⟨by decide, by decide⟩

/-- Counterexample to claim C9 as stated: in a headerless row whose first
cell text begins with a digit, the activity-name cell does contribute a key,
the JavaScript undefined key, which is not among the resolved days. -/
theorem C9_counterexample :
    ("undefined", ["3 on 3 pickleball"])
      ∈ (extractRow ["Monday", "Tuesday"] [] "" "Loc" "" "" "" ""
          ["3 on 3 Pickleball", "1-2pm"] false).schedules
    ∧ "undefined" ∉ getDays ["Monday", "Tuesday"] [] := by
  refine ⟨by decide, by decide⟩

/-- Counterexample to claim C8 as stated: the cell text at noon contains
noon, but its only candidate token, at 12 pm, fails the leading-integer
filter, so the output is empty and contains no token with 12 pm. -/
theorem C8_counterexample :
    containsTok noonPat "at noon".data = true
    ∧ parseTokens "at noon" = []
    ∧ (parseTokens "at noon").any (fun t => containsTok twelvePmPat t.data) = false := by
  refine ⟨by decide, by decide, by decide⟩

/-- Counterexample to claim C3 as stated: the aggregator stores Monday's
ranges ordered 10 - 10:30 before 9 - 11 because it sorts by the parsed end
time; by chronological start time, 600 minutes after midnight is not at most
540, so the stored sequence is not start-ascending. -/
theorem C3_counterexample :
    ((lookupAssoc (aggregate [yogaRow]) "A").map
        (fun e => (lookupAssoc e.sched "Monday").getD [])).getD []
      = ["10 - 10:30 am (Yoga)", "9 - 11 am (Yoga)"]
    ∧ specStartKey "10 - 10:30 am (Yoga)" = some 600
    ∧ specStartKey "9 - 11 am (Yoga)" = some 540
    ∧ ¬ ((specStartKey "10 - 10:30 am (Yoga)").getD 0
          ≤ (specStartKey "9 - 11 am (Yoga)").getD 0) := by
  refine ⟨by decide, by decide, by decide, by decide⟩

/-- Claim C4 is wrong on the code for the missing-file half: the callback
calls reject without returning, and the first settlement wins, so a read
error leaves the promise rejected and the await in main throws; only the
corrupt-contents case resolves with an empty table as claimed. Both loaders
share the callback shape. -/
theorem C4_eval :
    (∀ parse, getPreviousTimes parse none = some JsSettle.rejectedErr)
    ∧ (∀ parse data, data ≠ "" → parse data = none →
        getPreviousTimes parse (some data) = some (JsSettle.resolvedWith []))
    ∧ (∀ parse, getPreviousSchedule parse none = some JsSettle.rejectedErr)
    ∧ (∀ parse data, data ≠ "" → parse data = none →
        getPreviousSchedule parse (some data) = some (JsSettle.resolvedWith [])) := by
  refine ⟨fun parse => rfl, fun parse data hne hp => ?_, fun parse => rfl,
    fun parse data hne hp => ?_⟩ <;>
    simp [getPreviousTimes, getPreviousSchedule, readCacheSettleOps, promiseOutcome,
      Option.getD, if_neg hne, hp]

/-- Witness for C4_eval at a concrete parse function and concrete corrupt
data. -/
theorem C4_witness :
    getPreviousTimes (fun _ => none) none = some JsSettle.rejectedErr
    ∧ getPreviousTimes (fun _ => none) (some "bad") = some (JsSettle.resolvedWith [])
    ∧ getPreviousSchedule (fun _ => none) none = some JsSettle.rejectedErr
    ∧ getPreviousSchedule (fun _ => none) (some "bad") = some (JsSettle.resolvedWith []) :=
  ⟨C4_eval.1 (fun _ => none),
   C4_eval.2.1 (fun _ => none) "bad" (by decide) rfl,
   C4_eval.2.2.1 (fun _ => none),
   C4_eval.2.2.2 (fun _ => none) "bad" (by decide) rfl⟩

/-- Looking a key up after a JavaScript-style property assignment. -/
theorem lookupAssoc_insertAssoc {β : Type} (r : List (String × β)) (k : String) (v : β)
    (key : String) :
    lookupAssoc (insertAssoc r k v) key = if k = key then some v else lookupAssoc r key := by
  induction r with
  | nil => simp [insertAssoc, lookupAssoc]
  | cons p rest ih =>
    obtain ⟨k1, v1⟩ := p
    by_cases h1 : k1 = k
    · subst h1
      by_cases h2 : k1 = key <;> simp [insertAssoc, lookupAssoc, h2]
    · by_cases h2 : k1 = key
      · subst h2
        have h3 : ¬ k = k1 := fun h => h1 h.symm
        simp [insertAssoc, lookupAssoc, h1, h3]
      · simp [insertAssoc, lookupAssoc, h1, h2, ih]

/-- Looking a key up after inserting every key of a list with a value that
depends only on the key. -/
theorem lookup_foldl_ins (f : String → Nat) (ks : List String) (r : List (String × Nat))
    (key : String) :
    lookupAssoc (ks.foldl (fun r k => insertAssoc r k (f k)) r) key
      = if key ∈ ks then some (f key) else lookupAssoc r key := by
  induction ks generalizing r with
  | nil => simp
  | cons k ks ih =>
    simp only [List.foldl_cons, ih, lookupAssoc_insertAssoc, List.mem_cons]
    by_cases hk : key ∈ ks
    · simp [hk]
    · by_cases he : k = key
      · subst he
        simp [hk]
      · have : ¬ key = k := fun h => he h.symm
        simp [hk, he, this]

/-- Two insert-folds over the same key list agree when the value functions
agree on the keys. -/
theorem foldl_ins_congr (f g : String → Nat) (ks : List String) (r : List (String × Nat))
    (h : ∀ k ∈ ks, f k = g k) :
    ks.foldl (fun r k => insertAssoc r k (f k)) r
      = ks.foldl (fun r k => insertAssoc r k (g k)) r := by
  induction ks generalizing r with
  | nil => rfl
  | cons k ks ih =>
    simp only [List.foldl_cons]
    rw [h k (List.mem_cons_self k ks), ih _ (fun x hx => h x (List.mem_cons_of_mem k hx))]

/-- The inner times loop of buildDateTable is the insert-fold over that
day's derived keys. -/
theorem buildDateTable_times_eq (P : List (String × Nat)) (now : Nat) (name day : String)
    (ts : List String) (r : List (String × Nat)) :
    ts.foldl (fun result time =>
        insertAssoc result (name ++ "|" ++ day ++ "|" ++ splitActivity time)
          (olderVal P (name ++ "|" ++ day ++ "|" ++ splitActivity time) now)) r
      = (ts.map (fun time => name ++ "|" ++ day ++ "|" ++ splitActivity time)).foldl
          (fun r k => insertAssoc r k (olderVal P k now)) r := by
  rw [List.foldl_map]

/-- The day loop of buildDateTable is the insert-fold over the entry's
derived keys. -/
theorem buildDateTable_days_eq (P : List (String × Nat)) (now : Nat) (name : String)
    (sched : List (String × List String)) (days : List String) (r : List (String × Nat)) :
    days.foldl (fun result day =>
        match lookupAssoc sched day with
        | none => result
        | some times =>
          times.foldl (fun result time =>
            insertAssoc result (name ++ "|" ++ day ++ "|" ++ splitActivity time)
              (olderVal P (name ++ "|" ++ day ++ "|" ++ splitActivity time) now)) result) r
      = (days.foldr (fun day acc => dayKeys name day (lookupAssoc sched day) ++ acc) []).foldl
          (fun r k => insertAssoc r k (olderVal P k now)) r := by
  induction days generalizing r with
  | nil => rfl
  | cons d ds ih =>
    simp only [List.foldl_cons, List.foldr_cons, List.foldl_append]
    rw [← ih]
    congr 1
    cases h : lookupAssoc sched d with
    | none => simp [dayKeys, h]
    | some ts => simp [dayKeys, h, buildDateTable_times_eq]

/-- buildDateTable factored: it is the insert-fold of olderVal over the
derived keys of the current table, visited in order. -/
theorem buildDateTable_eq_foldKeys (P : List (String × Nat))
    (C : List (String × List (String × List String))) (now : Nat) :
    buildDateTable P C now
      = (derivedKeys C).foldl (fun r k => insertAssoc r k (olderVal P k now)) [] := by
  unfold buildDateTable derivedKeys
  generalize ([] : List (String × Nat)) = r
  induction C generalizing r with
  | nil => rfl
  | cons e es ih =>
    simp only [List.foldl_cons, List.foldr_cons, List.foldl_append]
    rw [← ih]
    congr 1
    exact buildDateTable_days_eq P now (baseName e.1) e.2 defaultDays r

/-- Claim C1 amended and proved: the output key set is exactly the derived
key set of the current table; a key of the previous table that is derivable
and has a nonzero timestamp keeps it; a derivable key that is absent from
the previous table, or mapped there to the falsy timestamp 0, is stamped
with the current time. -/
theorem C1_amended (P : List (String × Nat))
    (C : List (String × List (String × List String))) (now : Nat) :
    (∀ k, (lookupAssoc (buildDateTable P C now) k).isSome ↔ k ∈ derivedKeys C)
    ∧ (∀ k v, k ∈ derivedKeys C → lookupAssoc P k = some v → v ≠ 0 →
        lookupAssoc (buildDateTable P C now) k = some v)
    ∧ (∀ k, k ∈ derivedKeys C →
        (lookupAssoc P k = none ∨ lookupAssoc P k = some 0) →
        lookupAssoc (buildDateTable P C now) k = some now) := by
  have hfold := buildDateTable_eq_foldKeys P C now
  refine ⟨fun k => ?_, fun k v hk hp hv => ?_, fun k hk hp => ?_⟩
  · rw [hfold, lookup_foldl_ins]
    by_cases h : k ∈ derivedKeys C <;> simp [h, lookupAssoc]
  · rw [hfold, lookup_foldl_ins, if_pos hk]
    simp [olderVal, hp, hv]
  · rw [hfold, lookup_foldl_ins, if_pos hk]
    rcases hp with h | h <;> simp [olderVal, h]

/-- Witness for C1_amended: concrete previous table, current table and time,
exercising the carry-forward and the fresh-stamp conjuncts. -/
theorem C1_witness :
    lookupAssoc (buildDateTable [("Gy|Monday|1 - 2pm", 7)]
        [("Gym", [("Monday", ["1 - 2pm (Yoga)", "3 - 4 pm (Yoga)"])])] 5)
      "Gy|Monday|1 - 2pm" = some 7
    ∧ lookupAssoc (buildDateTable [("Gy|Monday|1 - 2pm", 7)]
        [("Gym", [("Monday", ["1 - 2pm (Yoga)", "3 - 4 pm (Yoga)"])])] 5)
      "Gy|Monday|3 - 4 pm" = some 5 :=
  ⟨(C1_amended [("Gy|Monday|1 - 2pm", 7)]
      [("Gym", [("Monday", ["1 - 2pm (Yoga)", "3 - 4 pm (Yoga)"])])] 5).2.1
      "Gy|Monday|1 - 2pm" 7 (by decide) (by decide) (by decide),
   (C1_amended [("Gy|Monday|1 - 2pm", 7)]
      [("Gym", [("Monday", ["1 - 2pm (Yoga)", "3 - 4 pm (Yoga)"])])] 5).2.2
      "Gy|Monday|3 - 4 pm" (by decide) (Or.inl (by decide))⟩

/-- Claim C7 confirmed, with the one hypothesis every real run satisfies,
that Date.now() is positive: rebuilding the table from its own output and
the same current schedule changes nothing. -/
theorem C7_idempotent (P : List (String × Nat))
    (C : List (String × List (String × List String))) (n1 n2 : Nat) (h : 0 < n1) :
    buildDateTable (buildDateTable P C n1) C n2 = buildDateTable P C n1 := by
  have key : ∀ k ∈ derivedKeys C, olderVal (buildDateTable P C n1) k n2 = olderVal P k n1 := by
    intro k hk
    have hv : olderVal P k n1 ≠ 0 := by
      unfold olderVal
      cases ho : lookupAssoc P k with
      | none =>
        show n1 ≠ 0
        omega
      | some v =>
        show (if v = 0 then n1 else v) ≠ 0
        by_cases hz : v = 0
        · rw [if_pos hz]
          omega
        · rw [if_neg hz]
          exact hz
    have hlook : lookupAssoc (buildDateTable P C n1) k = some (olderVal P k n1) := by
      rw [buildDateTable_eq_foldKeys P C n1, lookup_foldl_ins, if_pos hk]
    calc olderVal (buildDateTable P C n1) k n2
        = if olderVal P k n1 = 0 then n2 else olderVal P k n1 := by
          simp only [olderVal, hlook]
      _ = olderVal P k n1 := if_neg hv
  rw [buildDateTable_eq_foldKeys (buildDateTable P C n1) C n2]
  conv_rhs => rw [buildDateTable_eq_foldKeys P C n1]
  exact foldl_ins_congr _ _ _ _ key

/-- Witness for C7_idempotent at a concrete table, schedule and pair of
times. -/
theorem C7_witness :
    buildDateTable
        (buildDateTable [("Gy|Monday|1 - 2pm", 0)]
          [("Gym", [("Monday", ["1 - 2pm (Yoga)"])])] 3)
        [("Gym", [("Monday", ["1 - 2pm (Yoga)"])])] 9
      = buildDateTable [("Gy|Monday|1 - 2pm", 0)]
          [("Gym", [("Monday", ["1 - 2pm (Yoga)"])])] 3 :=
  C7_idempotent [("Gy|Monday|1 - 2pm", 0)] [("Gym", [("Monday", ["1 - 2pm (Yoga)"])])] 3 9
    (by decide)

/-- Membership after a JavaScript-style property assignment: the pair was
already there or is the assigned pair. -/
theorem mem_insertAssoc {β : Type} (acc : List (String × β)) (key : String) (w : β)
    (k : String) (v : β) (h : (k, v) ∈ insertAssoc acc key w) :
    (k, v) ∈ acc ∨ (k = key ∧ v = w) := by
  induction acc with
  | nil =>
    simp [insertAssoc] at h
    exact Or.inr h
  | cons p rest ih =>
    obtain ⟨k1, v1⟩ := p
    by_cases h1 : k1 = key
    · subst h1
      simp only [insertAssoc, if_pos rfl] at h
      rcases List.mem_cons.mp h with he | hr
      · exact Or.inr ⟨congrArg Prod.fst he, congrArg Prod.snd he⟩
      · exact Or.inl (List.mem_cons_of_mem _ hr)
    · simp only [insertAssoc, if_neg h1] at h
      rcases List.mem_cons.mp h with he | hr
      · exact Or.inl (List.mem_cons.mpr (Or.inl he))
      · rcases ih hr with hin | heq
        · exact Or.inl (List.mem_cons_of_mem _ hin)
        · exact Or.inr heq

/-- Claim C9 amended and proved: every key of the extracted day map is
either a member of the resolved day sequence or the rendering of the
JavaScript undefined label, which arises when the aligned index is out of
range, as for the activity-name cell of a headerless row whose text begins
with a digit; and every key maps to a nonempty token list. -/
theorem C9_amended (theadCells firstRowCells : List String) (captionText : String)
    (location link home address thText : String) (tds : List String) (eFlag : Bool)
    (k : String) (v : List String)
    (h : (k, v) ∈ (extractRow theadCells firstRowCells captionText location link home
        address thText tds eFlag).schedules) :
    (k ≠ "undefined" → k ∈ getDays theadCells firstRowCells) ∧ v ≠ [] := by
  have main : ∀ (l : List (Option String × List String)) (acc : List (String × List String)),
      (∀ p ∈ l, ∀ d, p.1 = some d → d ∈ getDays theadCells firstRowCells) →
      (∀ k2 v2, (k2, v2) ∈ acc →
        (k2 ≠ "undefined" → k2 ∈ getDays theadCells firstRowCells) ∧ v2 ≠ []) →
      ∀ k2 v2, (k2, v2) ∈ l.foldl (fun result p =>
          if p.2.isEmpty then result else insertAssoc result ((p.1).getD "undefined") p.2) acc →
        (k2 ≠ "undefined" → k2 ∈ getDays theadCells firstRowCells) ∧ v2 ≠ [] := by
    intro l
    induction l with
    | nil => intro acc hl hacc k2 v2 hm; exact hacc k2 v2 hm
    | cons p ps ih =>
      intro acc hl hacc k2 v2 hm
      simp only [List.foldl_cons] at hm
      refine ih _ (fun q hq => hl q (List.mem_cons_of_mem p hq)) ?_ k2 v2 hm
      intro k3 v3 h3
      by_cases he : p.2.isEmpty
      · rw [if_pos he] at h3
        exact hacc k3 v3 h3
      · rw [if_neg he] at h3
        rcases mem_insertAssoc _ _ _ _ _ h3 with hin | ⟨hk, hv⟩
        · exact hacc k3 v3 hin
        · subst hk
          subst hv
          constructor
          · intro hne
            cases hd : p.1 with
            | none => exact absurd (by simp [hd]) hne
            | some d =>
              have := hl p (List.mem_cons_self p ps) d hd
              simpa [hd] using this
          · intro hnil
            rw [hnil] at he
            exact he rfl
  have hdays : ∀ p ∈ rawSchedules (collapseWs thText != "")
      (getDays theadCells firstRowCells) tds eFlag, ∀ d, p.1 = some d →
        d ∈ getDays theadCells firstRowCells := by
    intro p hp d hd
    unfold rawSchedules at hp
    rcases List.mem_map.mp hp with ⟨q, hq, hqe⟩
    have hp1 : p.1 = cellDay (collapseWs thText != "") (getDays theadCells firstRowCells) q.1 := by
      rw [← hqe]
    rw [hp1] at hd
    unfold cellDay dayAt at hd
    by_cases hneg : ((q.1 : Int) - (if (collapseWs thText != "") = true then 0 else 1)) < 0
    · rw [if_pos hneg] at hd
      exact absurd hd (by simp)
    · rw [if_neg hneg] at hd
      exact List.getElem?_mem hd
  exact main _ [] hdays (fun k2 v2 hm => absurd hm (List.not_mem_nil _)) k v h

/-- Witness for C9_amended at the concrete scenario table. -/
theorem C9_witness :
    "Monday" ∈ getDays ["Monday", "Tuesday"] [] ∧ ["1 - 2pm"] ≠ ([] : List String) :=
  ⟨(C9_amended ["Monday", "Tuesday"] [] "" "Loc" "" "" "" "Pickleball" ["1-2pm", "3-4:30pm"]
      false "Monday" ["1 - 2pm"] (by decide)).1 (by decide),
   (C9_amended ["Monday", "Tuesday"] [] "" "Loc" "" "" "" "Pickleball" ["1-2pm", "3-4:30pm"]
      false "Monday" ["1 - 2pm"] (by decide)).2⟩

/-- Claim C10 confirmed: the aggregator iterates only the canonical day
list, so the day keys of every merged location entry are canonical days; a
schedules entry under any other label never reaches the output. -/
theorem C10_invariant (results : List ActivityResult) (loc : String) (e : LocEntry)
    (hl : lookupAssoc (aggregate results) loc = some e)
    (day : String) (ranges : List String) (hm : (day, ranges) ∈ e.sched) :
    day ∈ defaultDays := by
  have main : ∀ (rs : List ActivityResult) (acc : List (String × LocEntry)),
      (∀ loc2 e2, lookupAssoc acc loc2 = some e2 →
        ∀ d2 r2, (d2, r2) ∈ e2.sched → d2 ∈ defaultDays) →
      ∀ loc2 e2, lookupAssoc (rs.foldl aggregateStep acc) loc2 = some e2 →
        ∀ d2 r2, (d2, r2) ∈ e2.sched → d2 ∈ defaultDays := by
    intro rs
    induction rs with
    | nil => intro acc hacc loc2 e2 hl2; exact hacc loc2 e2 hl2
    | cons a as ih =>
      intro acc hacc loc2 e2 hl2
      simp only [List.foldl_cons] at hl2
      refine ih _ ?_ loc2 e2 hl2
      intro loc3 e3 hl3 d3 r3 hm3
      unfold aggregateStep at hl3
      rw [lookupAssoc_insertAssoc] at hl3
      by_cases hk : a.location = loc3
      · rw [if_pos hk] at hl3
        have he3 : e3.sched = defaultDays.filterMap (fun day =>
            let ds := dayScheduleFor acc a day
            if ds.isEmpty then none else some (day, ds)) := by
          rw [← Option.some_inj.mp hl3]
        rw [he3] at hm3
        rcases List.mem_filterMap.mp hm3 with ⟨d4, hd4, hf⟩
        by_cases hemp : (dayScheduleFor acc a d4).isEmpty
        · simp only [if_pos hemp] at hf
          exact absurd hf (by simp)
        · simp only [if_neg hemp] at hf
          have : d4 = d3 := congrArg Prod.fst (Option.some_inj.mp hf)
          rw [← this]
          exact hd4
      · rw [if_neg hk] at hl3
        exact hacc loc3 e3 hl3 d3 r3 hm3
  exact main results [] (fun loc2 e2 hl2 => by simp [lookupAssoc] at hl2) loc e hl day ranges hm

/-- Witness for C10_invariant at a concrete aggregation. -/
theorem C10_witness : "Monday" ∈ defaultDays :=
  C10_invariant [yogaRow] "A"
    { link := "", home := "", address := "",
      sched := [("Monday", ["10 - 10:30 am (Yoga)", "9 - 11 am (Yoga)"])] }
    (by decide) "Monday" ["10 - 10:30 am (Yoga)", "9 - 11 am (Yoga)"] (by decide)

/-- The comparator in terms of end-time keys when both sides parse. -/
theorem timeLe_eq_decide {a b : String} {ka kb : Nat} (ha : getTime a = some ka)
    (hb : getTime b = some kb) : timeLe a b = decide (ka ≤ kb) := by
  simp [timeLe, ha, hb]

/-- Stable insertion permutes: the result is the new element plus the old
list. -/
theorem insertTime_perm (x : String) (l : List String) :
    List.Perm (insertTime x l) (x :: l) := by
  induction l with
  | nil => exact List.Perm.refl _
  | cons y ys ih =>
    by_cases h : timeLe y x = true
    · simp only [insertTime, if_pos h]
      exact (ih.cons y).trans (List.Perm.swap x y ys)
    · simp only [insertTime, if_neg h]
      exact List.Perm.refl _

/-- The insert-fold permutes to the input followed by the accumulator. -/
theorem foldl_insertTime_perm (l : List String) :
    ∀ acc, List.Perm (l.foldl (fun acc x => insertTime x acc) acc) (l ++ acc) := by
  induction l with
  | nil => intro acc; exact List.Perm.refl _
  | cons x xs ih =>
    intro acc
    simp only [List.foldl_cons, List.cons_append]
    exact ((ih _).trans (List.Perm.append_left xs (insertTime_perm x acc))).trans
      List.perm_middle

/-- The modelled sort permutes its input. -/
theorem sortTimes_perm (l : List String) : List.Perm (sortTimes l) l := by
  have := foldl_insertTime_perm l []
  rwa [List.append_nil] at this

/-- Stable insertion preserves sortedness by the comparator, on lists whose
elements all parse. -/
theorem insertTime_pairwise (x : String) (acc : List String)
    (hx : (getTime x).isSome) (hacc : ∀ y ∈ acc, (getTime y).isSome)
    (hp : List.Pairwise (fun a b => timeLe a b = true) acc) :
    List.Pairwise (fun a b => timeLe a b = true) (insertTime x acc) := by
  induction acc with
  | nil => simp [insertTime]
  | cons y ys ih =>
    obtain ⟨hy, hys⟩ := List.pairwise_cons.mp hp
    have hydef : (getTime y).isSome := hacc y (List.mem_cons_self y ys)
    have hysdef : ∀ z ∈ ys, (getTime z).isSome := fun z hz => hacc z (List.mem_cons_of_mem y hz)
    by_cases h : timeLe y x = true
    · simp only [insertTime, if_pos h]
      refine List.pairwise_cons.mpr ⟨fun z hz => ?_, ih hysdef hys⟩
      rcases List.mem_cons.mp ((insertTime_perm x ys).mem_iff.mp hz) with hzx | hzys
      · rw [hzx]; exact h
      · exact hy z hzys
    · simp only [insertTime, if_neg h]
      obtain ⟨kx, hkx⟩ := Option.isSome_iff_exists.mp hx
      obtain ⟨ky, hky⟩ := Option.isSome_iff_exists.mp hydef
      have hxy : timeLe x y = true := by
        rw [timeLe_eq_decide hky hkx] at h
        rw [timeLe_eq_decide hkx hky]
        simp only [decide_eq_true_eq] at h ⊢
        omega
      refine List.pairwise_cons.mpr ⟨fun z hz => ?_, hp⟩
      rcases List.mem_cons.mp hz with hzy | hzys
      · rw [hzy]; exact hxy
      · obtain ⟨kz, hkz⟩ := Option.isSome_iff_exists.mp (hysdef z hzys)
        have hyz := hy z hzys
        rw [timeLe_eq_decide hky hkz] at hyz
        rw [timeLe_eq_decide hkx hky] at hxy
        rw [timeLe_eq_decide hkx hkz]
        simp only [decide_eq_true_eq] at hyz hxy ⊢
        omega

/-- The insert-fold preserves sortedness on all-parseable input. -/
theorem foldl_insertTime_pairwise (l : List String) :
    ∀ acc, (∀ y ∈ l, (getTime y).isSome) → (∀ y ∈ acc, (getTime y).isSome) →
    List.Pairwise (fun a b => timeLe a b = true) acc →
    List.Pairwise (fun a b => timeLe a b = true)
      (l.foldl (fun acc x => insertTime x acc) acc) := by
  induction l with
  | nil => intro acc _ _ hp; exact hp
  | cons x xs ih =>
    intro acc hl hacc hp
    simp only [List.foldl_cons]
    have hxdef : (getTime x).isSome := hl x (List.mem_cons_self x xs)
    refine ih _ (fun y hy => hl y (List.mem_cons_of_mem x hy)) ?_
      (insertTime_pairwise x acc hxdef hacc hp)
    intro y hy
    rcases List.mem_cons.mp ((insertTime_perm x acc).mem_iff.mp hy) with hyx | hyacc
    · rw [hyx]; exact hxdef
    · exact hacc y hyacc

/-- Claim C3 sortedness part: the stored day schedule is weakly ascending by
the comparator, hence by parsed end time on parseable input. -/
theorem sortTimes_pairwise (l : List String) (h : ∀ y ∈ l, (getTime y).isSome) :
    List.Pairwise (fun a b => timeLe a b = true) (sortTimes l) :=
  foldl_insertTime_pairwise l [] h (fun y hy => absurd hy (List.not_mem_nil y))
    (List.Pairwise.nil)

/-- Stable insertion and key-class filtering: the new element lands after
every previously present element of its key class. -/
theorem filter_insertTime (m : Nat) (x : String) (acc : List String)
    (hx : (getTime x).isSome) (hacc : ∀ y ∈ acc, (getTime y).isSome)
    (hp : List.Pairwise (fun a b => timeLe a b = true) acc) :
    (insertTime x acc).filter (fun s => decide (getTime s = some m))
      = if getTime x = some m then
          acc.filter (fun s => decide (getTime s = some m)) ++ [x]
        else acc.filter (fun s => decide (getTime s = some m)) := by
  induction acc with
  | nil =>
    by_cases hxm : getTime x = some m <;> simp [insertTime, hxm]
  | cons y ys ih =>
    obtain ⟨hy, hys⟩ := List.pairwise_cons.mp hp
    have hydef : (getTime y).isSome := hacc y (List.mem_cons_self y ys)
    have hysdef : ∀ z ∈ ys, (getTime z).isSome := fun z hz => hacc z (List.mem_cons_of_mem y hz)
    by_cases h : timeLe y x = true
    · simp only [insertTime, if_pos h]
      by_cases hym : getTime y = some m
      · by_cases hxm : getTime x = some m <;>
          simp [List.filter_cons, hym, hxm, ih hysdef hys]
      · by_cases hxm : getTime x = some m <;>
          simp [List.filter_cons, hym, hxm, ih hysdef hys]
    · simp only [insertTime, if_neg h]
      obtain ⟨kx, hkx⟩ := Option.isSome_iff_exists.mp hx
      obtain ⟨ky, hky⟩ := Option.isSome_iff_exists.mp hydef
      have hlt : kx < ky := by
        rw [timeLe_eq_decide hky hkx] at h
        simp only [decide_eq_true_eq] at h
        omega
      by_cases hxm : getTime x = some m
      · have hkxm : kx = m := by
          rw [hkx] at hxm
          exact Option.some_inj.mp hxm
        have hnil : (y :: ys).filter (fun s => decide (getTime s = some m)) = [] := by
          rw [List.filter_eq_nil_iff]
          intro z hz
          rcases List.mem_cons.mp hz with hzy | hzys
          · subst hzy
            simp only [decide_eq_true_eq]
            rw [hky]
            intro hcon
            have := Option.some_inj.mp hcon
            omega
          · obtain ⟨kz, hkz⟩ := Option.isSome_iff_exists.mp (hysdef z hzys)
            have hyz := hy z hzys
            rw [timeLe_eq_decide hky hkz] at hyz
            simp only [decide_eq_true_eq] at hyz
            simp only [decide_eq_true_eq]
            rw [hkz]
            intro hcon
            have := Option.some_inj.mp hcon
            omega
        rw [if_pos hxm, hnil]
        simp [List.filter_cons, hxm, hnil]
      · rw [if_neg hxm]
        simp [List.filter_cons, hxm]

/-- The insert-fold and key-class filtering: classes concatenate in input
order. -/
theorem foldl_insertTime_filter (m : Nat) (l : List String) :
    ∀ acc, (∀ y ∈ l, (getTime y).isSome) → (∀ y ∈ acc, (getTime y).isSome) →
    List.Pairwise (fun a b => timeLe a b = true) acc →
    (l.foldl (fun acc x => insertTime x acc) acc).filter (fun s => decide (getTime s = some m))
      = acc.filter (fun s => decide (getTime s = some m))
        ++ l.filter (fun s => decide (getTime s = some m)) := by
  induction l with
  | nil => intro acc _ _ _; simp
  | cons x xs ih =>
    intro acc hl hacc hp
    simp only [List.foldl_cons]
    have hxdef : (getTime x).isSome := hl x (List.mem_cons_self x xs)
    have hinsdef : ∀ y ∈ insertTime x acc, (getTime y).isSome := by
      intro y hy
      rcases List.mem_cons.mp ((insertTime_perm x acc).mem_iff.mp hy) with hyx | hyacc
      · rw [hyx]; exact hxdef
      · exact hacc y hyacc
    rw [ih _ (fun y hy => hl y (List.mem_cons_of_mem x hy)) hinsdef
        (insertTime_pairwise x acc hxdef hacc hp),
      filter_insertTime m x acc hxdef hacc hp]
    by_cases hxm : getTime x = some m <;> simp [List.filter_cons, hxm]

/-- Claim C3 stability part: key classes of the sorted list equal those of
the input, in input order. -/
theorem sortTimes_filter (m : Nat) (l : List String) (h : ∀ y ∈ l, (getTime y).isSome) :
    (sortTimes l).filter (fun s => decide (getTime s = some m))
      = l.filter (fun s => decide (getTime s = some m)) := by
  have := foldl_insertTime_filter m l [] h
    (fun y hy => absurd hy (List.not_mem_nil y)) List.Pairwise.nil
  simpa using this

/-- Claim C3 amended and proved: the day schedule the Location Aggregator
stores is the stable ascending sort of the accumulated-then-new
concatenation by the getTime comparator, which keys on the parsed END time
of each labeled range, not the start time: it is a permutation of the
input, weakly ascending by the comparator, and each end-time key class
keeps its original insertion order. The hypothesis, every involved range
parses, matches the well-formed ranges the extractor produces; on
unparseable ranges the JavaScript comparator is inconsistent and the sort
order is implementation defined. -/
theorem C3_amended (acc : List (String × LocEntry)) (a : ActivityResult) (day : String)
    (h : ∀ x ∈ dayInput acc a day, (getTime x).isSome) :
    List.Perm (dayScheduleFor acc a day) (dayInput acc a day)
    ∧ List.Pairwise (fun x y => timeLe x y = true) (dayScheduleFor acc a day)
    ∧ ∀ m : Nat, (dayScheduleFor acc a day).filter (fun s => decide (getTime s = some m))
        = (dayInput acc a day).filter (fun s => decide (getTime s = some m)) :=
  ⟨sortTimes_perm (dayInput acc a day),
   sortTimes_pairwise (dayInput acc a day) h,
   fun m => sortTimes_filter m (dayInput acc a day) h⟩

/-- Witness for C3_amended at the concrete two-range Monday row. -/
theorem C3_witness :
    List.Pairwise (fun x y => timeLe x y = true) (dayScheduleFor [] yogaRow "Monday") :=
  (C3_amended [] yogaRow "Monday" (by decide)).2.1


/-- Unfolding of the noon replacement at a match. -/
theorem replaceNoon_pos (rest : List Char) :
    replaceNoon ('n' :: 'o' :: 'o' :: 'n' :: rest)
      = '1' :: '2' :: ' ' :: 'p' :: 'm' :: replaceNoon rest := rfl

/-- Unfolding of the noon replacement when the pattern does not match at the
current position. -/
theorem replaceNoon_neg (c : Char) (rest : List Char)
    (h : noonPat.isPrefixOf (c :: rest) = false) :
    replaceNoon (c :: rest) = c :: replaceNoon rest := by
  rw [replaceNoon.eq_def]
  split
  · rename_i rest4 heq
    rw [heq] at h
    simp [noonPat, List.isPrefixOf] at h
  · rename_i c2 rest2 hne heq
    injection heq with h1 h2
    rw [h1, h2]
  · rename_i heq
    cases heq

/-- Unfolding of the dash spacing at a matching unspaced hyphen. -/
theorem sd_pos (x y : Char) (rest : List Char) (hx : x ≠ ' ') (hy : y ≠ ' ') :
    spaceDashes (x :: '-' :: y :: rest) = x :: ' ' :: '-' :: ' ' :: y :: spaceDashes rest := by
  show (if x ≠ ' ' && y ≠ ' ' then _ else _) = _
  rw [if_pos (by simp [hx, hy])]

/-- Unfolding of the dash spacing at a hyphen already flanked by a space. -/
theorem sd_neg (x y : Char) (rest : List Char) (h : ¬ (x ≠ ' ' ∧ y ≠ ' ')) :
    spaceDashes (x :: '-' :: y :: rest) = x :: spaceDashes ('-' :: y :: rest) := by
  show (if x ≠ ' ' && y ≠ ' ' then _ else _) = _
  rw [if_neg (by simpa using h)]

/-- Unfolding of the dash spacing when the second character is no hyphen. -/
theorem sd_short2 (x y : Char) (hy : y ≠ '-') (rest : List Char) :
    spaceDashes (x :: y :: rest) = x :: spaceDashes (y :: rest) := by
  rw [spaceDashes.eq_def]
  split
  · rename_i a b rest2 heq
    injection heq with h1 h2
    injection h2 with h3 h4
    exact absurd h3 hy
  · rename_i a rest2 hne heq
    injection heq with h1 h2
    rw [h1, h2]
  · rename_i heq
    cases heq

/-- Unfolding of the containment scan on a cons cell. -/
theorem containsTok_cons (pat : List Char) (c : Char) (rest : List Char) :
    containsTok pat (c :: rest) = (pat.isPrefixOf (c :: rest) || containsTok pat rest) := rfl

/-- A failed containment on a cons cell fails at the head and on the tail. -/
theorem containsTok_cons_false {pat : List Char} {c : Char} {rest : List Char}
    (h : containsTok pat (c :: rest) = false) :
    pat.isPrefixOf (c :: rest) = false ∧ containsTok pat rest = false := by
  cases hp : pat.isPrefixOf (c :: rest) with
  | true =>
    rw [containsTok_cons, hp, Bool.true_or] at h
    exact Bool.noConfusion h
  | false =>
    rw [containsTok_cons, hp, Bool.false_or] at h
    exact ⟨rfl, h⟩

/-- A one-character pattern against a cons cell is the head test. -/
theorem pre_single (a c : Char) (X : List Char) : [a].isPrefixOf (c :: X) = (a == c) := by
  show ((a == c) && [].isPrefixOf X) = (a == c)
  rw [List.isPrefixOf_nil_left, Bool.and_true]

/-- The dash spacing leaves a two-character list unchanged. -/
theorem sd_two (x y : Char) : spaceDashes [x, y] = [x, y] := by
  by_cases hd : y = '-'
  · subst hd
    rfl
  · rw [sd_short2 x y hd []]
    rfl

/-- A prefix of a list is a prefix of its extension. -/
theorem isPre_append {p a : List Char} (b : List Char) (h : p.isPrefixOf a = true) :
    p.isPrefixOf (a ++ b) = true := by
  induction p generalizing a with
  | nil => exact List.isPrefixOf_nil_left
  | cons x p2 ih =>
    cases a with
    | nil => exact Bool.noConfusion h
    | cons y a2 =>
      rw [List.cons_append]
      show (x == y && p2.isPrefixOf (a2 ++ b)) = true
      have h2 : (x == y && p2.isPrefixOf a2) = true := h
      obtain ⟨h3, h4⟩ := Bool.and_eq_true_iff.mp h2
      exact Bool.and_eq_true_iff.mpr ⟨h3, ih h4⟩

/-- Containment in a left part carries to the concatenation. -/
theorem containsTok_append_left {pat a : List Char} (b : List Char)
    (h : containsTok pat a = true) : containsTok pat (a ++ b) = true := by
  induction a with
  | nil =>
    cases pat with
    | nil =>
      cases b with
      | nil => rfl
      | cons c rest => rw [List.nil_append, containsTok_cons]; rfl
    | cons x p2 => exact Bool.noConfusion h
  | cons c a2 ih =>
    rw [containsTok_cons] at h
    rw [List.cons_append, containsTok_cons]
    rcases Bool.or_eq_true_iff.mp h with h1 | h2
    · have := isPre_append (a := c :: a2) b h1
      rw [List.cons_append] at this
      rw [this, Bool.true_or]
    · rw [ih h2, Bool.or_true]

/-- Containment in a right part carries to the concatenation. -/
theorem containsTok_append_right {pat b : List Char} (a : List Char)
    (h : containsTok pat b = true) : containsTok pat (a ++ b) = true := by
  induction a with
  | nil => exact h
  | cons c a2 ih =>
    rw [List.cons_append, containsTok_cons, ih, Bool.or_true]

/-- No containment in a concatenation means none in the left part. -/
theorem containsTok_false_left {pat a b : List Char}
    (h : containsTok pat (a ++ b) = false) : containsTok pat a = false := by
  cases hc : containsTok pat a with
  | false => rfl
  | true =>
    rw [containsTok_append_left b hc] at h
    exact Bool.noConfusion h

/-- No containment in a concatenation means none in the right part. -/
theorem containsTok_false_right {pat a b : List Char}
    (h : containsTok pat (a ++ b) = false) : containsTok pat b = false := by
  cases hc : containsTok pat b with
  | false => rfl
  | true =>
    rw [containsTok_append_right a hc] at h
    exact Bool.noConfusion h

/-- A list without the letter n cannot contain the noon pattern. -/
theorem cont_noon_of_no_n (l : List Char) (h : ∀ c ∈ l, c ≠ 'n') :
    containsTok noonPat l = false := by
  induction l with
  | nil => rfl
  | cons c rest ih =>
    have hc := h c (List.mem_cons_self c rest)
    have hpre : noonPat.isPrefixOf (c :: rest) = false := by
      show (('n' == c) && ['o', 'o', 'n'].isPrefixOf rest) = false
      have hb : ('n' == c) = false := by
        cases hx : ('n' == c) with
        | false => rfl
        | true => exact absurd (eq_of_beq hx).symm hc
      rw [hb, Bool.false_and]
    rw [containsTok_cons, hpre, Bool.false_or]
    exact ih (fun c2 h2 => h c2 (List.mem_cons_of_mem c h2))

/-- Shape of a list the noon pattern starts. -/
theorem noon_pre_shape {c : Char} {rest : List Char}
    (h : noonPat.isPrefixOf (c :: rest) = true) :
    c = 'n' ∧ ∃ r3, rest = 'o' :: 'o' :: 'n' :: r3 := by
  rcases rest with _ | ⟨d1, rest1⟩
  · simp [noonPat, List.isPrefixOf] at h
  rcases rest1 with _ | ⟨d2, rest2⟩
  · simp [noonPat, List.isPrefixOf] at h
  rcases rest2 with _ | ⟨d3, rest3⟩
  · simp [noonPat, List.isPrefixOf] at h
  simp only [noonPat, List.isPrefixOf, Bool.and_eq_true, beq_iff_eq, Bool.and_true] at h
  obtain ⟨h1, h2, h3, h4⟩ := h
  exact ⟨h1.symm, rest3, by rw [← h2, ← h3, ← h4]⟩

/-- The letter n starts the noon replacement's output only where it starts
the input. -/
theorem rn_pre_n (l : List Char) (h : ['n'].isPrefixOf (replaceNoon l) = true) :
    ['n'].isPrefixOf l = true := by
  cases l with
  | nil => exact Bool.noConfusion h
  | cons c rest =>
    by_cases hp : noonPat.isPrefixOf (c :: rest) = true
    · obtain ⟨hc, r3, hr⟩ := noon_pre_shape hp
      subst hc
      subst hr
      rfl
    · have hb : noonPat.isPrefixOf (c :: rest) = false := by
        cases hx : noonPat.isPrefixOf (c :: rest) with
        | false => rfl
        | true => exact absurd hx hp
      rw [replaceNoon_neg c rest hb] at h
      rw [pre_single] at h ⊢
      exact h

/-- The pair on starts the noon replacement's output only where it starts
the input. -/
theorem rn_pre_on (l : List Char) (h : ['o', 'n'].isPrefixOf (replaceNoon l) = true) :
    ['o', 'n'].isPrefixOf l = true := by
  cases l with
  | nil => exact Bool.noConfusion h
  | cons c rest =>
    by_cases hp : noonPat.isPrefixOf (c :: rest) = true
    · obtain ⟨hc, r3, hr⟩ := noon_pre_shape hp
      subst hc
      subst hr
      rw [replaceNoon_pos] at h
      exact Bool.noConfusion h
    · have hb : noonPat.isPrefixOf (c :: rest) = false := by
        cases hx : noonPat.isPrefixOf (c :: rest) with
        | false => rfl
        | true => exact absurd hx hp
      rw [replaceNoon_neg c rest hb] at h
      have h2 : ('o' == c && ['n'].isPrefixOf (replaceNoon rest)) = true := h
      obtain ⟨h3, h4⟩ := Bool.and_eq_true_iff.mp h2
      show ('o' == c && ['n'].isPrefixOf rest) = true
      exact Bool.and_eq_true_iff.mpr ⟨h3, rn_pre_n rest h4⟩

/-- The triple oon starts the noon replacement's output only where it
starts the input. -/
theorem rn_pre_oon (l : List Char) (h : ['o', 'o', 'n'].isPrefixOf (replaceNoon l) = true) :
    ['o', 'o', 'n'].isPrefixOf l = true := by
  cases l with
  | nil => exact Bool.noConfusion h
  | cons c rest =>
    by_cases hp : noonPat.isPrefixOf (c :: rest) = true
    · obtain ⟨hc, r3, hr⟩ := noon_pre_shape hp
      subst hc
      subst hr
      rw [replaceNoon_pos] at h
      exact Bool.noConfusion h
    · have hb : noonPat.isPrefixOf (c :: rest) = false := by
        cases hx : noonPat.isPrefixOf (c :: rest) with
        | false => rfl
        | true => exact absurd hx hp
      rw [replaceNoon_neg c rest hb] at h
      have h2 : ('o' == c && ['o', 'n'].isPrefixOf (replaceNoon rest)) = true := h
      obtain ⟨h3, h4⟩ := Bool.and_eq_true_iff.mp h2
      show ('o' == c && ['o', 'n'].isPrefixOf rest) = true
      exact Bool.and_eq_true_iff.mpr ⟨h3, rn_pre_on rest h4⟩

/-- The noon replacement's output never contains the noon pattern. -/
theorem rn_noonFree (l : List Char) : containsTok noonPat (replaceNoon l) = false := by
  suffices H : ∀ n (l2 : List Char), l2.length ≤ n →
      containsTok noonPat (replaceNoon l2) = false from H l.length l (Nat.le_refl _)
  intro n
  induction n with
  | zero =>
    intro l2 hl
    have h0 : l2 = [] := List.eq_nil_of_length_eq_zero (Nat.le_zero.mp hl)
    subst h0
    rfl
  | succ n ih =>
    intro l2 hl
    cases l2 with
    | nil => rfl
    | cons c rest =>
      simp only [List.length_cons] at hl
      by_cases hp : noonPat.isPrefixOf (c :: rest) = true
      · obtain ⟨hc, r3, hr⟩ := noon_pre_shape hp
        subst hc
        subst hr
        rw [replaceNoon_pos]
        show containsTok noonPat (replaceNoon r3) = false
        simp only [List.length_cons] at hl
        exact ih r3 (by omega)
      · have hb : noonPat.isPrefixOf (c :: rest) = false := by
          cases hx : noonPat.isPrefixOf (c :: rest) with
          | false => rfl
          | true => exact absurd hx hp
        rw [replaceNoon_neg c rest hb]
        have hcont : containsTok noonPat (replaceNoon rest) = false :=
          ih rest (by omega)
        cases hpre : noonPat.isPrefixOf (c :: replaceNoon rest) with
        | false => rw [containsTok_cons, hpre, hcont]; rfl
        | true =>
          exfalso
          have h2 : ('n' == c && ['o', 'o', 'n'].isPrefixOf (replaceNoon rest)) = true := hpre
          obtain ⟨h3, h4⟩ := Bool.and_eq_true_iff.mp h2
          have h5 : noonPat.isPrefixOf (c :: rest) = true := by
            show ('n' == c && ['o', 'o', 'n'].isPrefixOf rest) = true
            exact Bool.and_eq_true_iff.mpr ⟨h3, rn_pre_oon rest h4⟩
          rw [h5] at hb
          exact Bool.noConfusion hb

/-- The en dash fix reflects prefixes made of the letters n and o. -/
theorem pre_map_endash (p : List Char) (hp : ∀ a ∈ p, a = 'n' ∨ a = 'o') :
    ∀ l, p.isPrefixOf (l.map endashFix) = true → p.isPrefixOf l = true := by
  induction p with
  | nil => intro l _; exact List.isPrefixOf_nil_left
  | cons a p2 ih =>
    intro l h
    cases l with
    | nil => exact Bool.noConfusion h
    | cons b rest =>
      rw [List.map_cons] at h
      have h2 : (a == endashFix b && p2.isPrefixOf (rest.map endashFix)) = true := h
      obtain ⟨h3, h4⟩ := Bool.and_eq_true_iff.mp h2
      have hab : a = endashFix b := eq_of_beq h3
      have hba : a = b := by
        unfold endashFix at hab
        by_cases hbd : b = '–'
        · rw [if_pos hbd] at hab
          rcases hp a (List.mem_cons_self a p2) with h5 | h5 <;> rw [h5] at hab <;>
            exact absurd hab (by decide)
        · rwa [if_neg hbd] at hab
      show (a == b && p2.isPrefixOf rest) = true
      refine Bool.and_eq_true_iff.mpr ⟨by rw [hba]; exact beq_self_eq_true b, ?_⟩
      exact ih (fun x hx => hp x (List.mem_cons_of_mem a hx)) rest h4

/-- The en dash fix preserves noon-freeness. -/
theorem em_noonFree (l : List Char) (h : containsTok noonPat l = false) :
    containsTok noonPat (l.map endashFix) = false := by
  induction l with
  | nil => rfl
  | cons c rest ih =>
    obtain ⟨hpre0, hcont0⟩ := containsTok_cons_false h
    rw [List.map_cons, containsTok_cons, ih hcont0, Bool.or_false]
    cases hpre : noonPat.isPrefixOf (endashFix c :: rest.map endashFix) with
    | false => rfl
    | true =>
      exfalso
      have h2 : noonPat.isPrefixOf ((c :: rest).map endashFix) = true := by
        rw [List.map_cons]
        exact hpre
      have h3 := pre_map_endash noonPat (by intro a ha; fin_cases ha <;> simp) (c :: rest) h2
      rw [h3] at hpre0
      exact Bool.noConfusion hpre0

/-- The head of the dash-spacing output is the head of its input. -/
theorem sd_head (l : List Char) : (spaceDashes l).head? = l.head? := by
  cases l with
  | nil => rfl
  | cons x rest =>
    rcases rest with _ | ⟨y, rest1⟩
    · rfl
    rcases rest1 with _ | ⟨z, rest2⟩
    · rw [sd_two]
    by_cases hd : y = '-'
    · subst hd
      by_cases hx : x ≠ ' ' ∧ z ≠ ' '
      · rw [sd_pos x z rest2 hx.1 hx.2]
        rfl
      · rw [sd_neg x z rest2 hx]
        rfl
    · rw [sd_short2 x y hd (z :: rest2)]
      rfl

/-- A one-character pattern starts a list exactly when it is the head. -/
theorem pre_single_iff (a : Char) (m : List Char) :
    [a].isPrefixOf m = true ↔ m.head? = some a := by
  cases m with
  | nil =>
    constructor
    · intro h
      exact Bool.noConfusion h
    · intro h
      exact Option.noConfusion h
  | cons c rest =>
    rw [pre_single]
    show (a == c) = true ↔ some c = some a
    constructor
    · intro h
      rw [eq_of_beq h]
    · intro h
      rw [Option.some_inj.mp h]
      exact beq_self_eq_true a

/-- The letter n starts the dash-spacing output only where it starts the
input. -/
theorem sd_pre_n (l : List Char) (h : ['n'].isPrefixOf (spaceDashes l) = true) :
    ['n'].isPrefixOf l = true := by
  rw [pre_single_iff] at h ⊢
  rwa [sd_head] at h

/-- The pair on starts the dash-spacing output only where it starts the
input. -/
theorem sd_pre_on (l : List Char) (h : ['o', 'n'].isPrefixOf (spaceDashes l) = true) :
    ['o', 'n'].isPrefixOf l = true := by
  cases l with
  | nil => exact Bool.noConfusion h
  | cons x rest =>
    rcases rest with _ | ⟨y, rest1⟩
    · exact h
    rcases rest1 with _ | ⟨z, rest2⟩
    · rw [sd_two] at h
      exact h
    by_cases hd : y = '-'
    · subst hd
      by_cases hx : x ≠ ' ' ∧ z ≠ ' '
      · rw [sd_pos x z rest2 hx.1 hx.2] at h
        have h2 : (('o' == x) && false) = true := h
        rw [Bool.and_false] at h2
        exact Bool.noConfusion h2
      · rw [sd_neg x z rest2 hx] at h
        have h2 : ('o' == x && ['n'].isPrefixOf (spaceDashes ('-' :: z :: rest2))) = true := h
        obtain ⟨h3, h4⟩ := Bool.and_eq_true_iff.mp h2
        rw [pre_single_iff, sd_head] at h4
        exact absurd (Option.some_inj.mp h4) (by decide)
    · rw [sd_short2 x y hd (z :: rest2)] at h
      have h2 : ('o' == x && ['n'].isPrefixOf (spaceDashes (y :: z :: rest2))) = true := h
      obtain ⟨h3, h4⟩ := Bool.and_eq_true_iff.mp h2
      have h5 := sd_pre_n _ h4
      show ('o' == x && ['n'].isPrefixOf (y :: z :: rest2)) = true
      exact Bool.and_eq_true_iff.mpr ⟨h3, h5⟩

/-- The triple oon starts the dash-spacing output only where it starts the
input. -/
theorem sd_pre_oon (l : List Char) (h : ['o', 'o', 'n'].isPrefixOf (spaceDashes l) = true) :
    ['o', 'o', 'n'].isPrefixOf l = true := by
  cases l with
  | nil => exact Bool.noConfusion h
  | cons x rest =>
    rcases rest with _ | ⟨y, rest1⟩
    · exact h
    rcases rest1 with _ | ⟨z, rest2⟩
    · rw [sd_two] at h
      exact h
    by_cases hd : y = '-'
    · subst hd
      by_cases hx : x ≠ ' ' ∧ z ≠ ' '
      · rw [sd_pos x z rest2 hx.1 hx.2] at h
        have h2 : (('o' == x) && false) = true := h
        rw [Bool.and_false] at h2
        exact Bool.noConfusion h2
      · rw [sd_neg x z rest2 hx] at h
        have h2 : ('o' == x && ['o', 'n'].isPrefixOf (spaceDashes ('-' :: z :: rest2))) = true := h
        obtain ⟨h3, h4⟩ := Bool.and_eq_true_iff.mp h2
        have h5 := sd_pre_on _ h4
        exact Bool.noConfusion h5
    · rw [sd_short2 x y hd (z :: rest2)] at h
      have h2 : ('o' == x && ['o', 'n'].isPrefixOf (spaceDashes (y :: z :: rest2))) = true := h
      obtain ⟨h3, h4⟩ := Bool.and_eq_true_iff.mp h2
      have h5 := sd_pre_on _ h4
      show ('o' == x && ['o', 'n'].isPrefixOf (y :: z :: rest2)) = true
      exact Bool.and_eq_true_iff.mpr ⟨h3, h5⟩

/-- The dash spacing preserves noon-freeness. -/
theorem sd_noonFree (l : List Char) (h : containsTok noonPat l = false) :
    containsTok noonPat (spaceDashes l) = false := by
  suffices H : ∀ n (l2 : List Char), l2.length ≤ n → containsTok noonPat l2 = false →
      containsTok noonPat (spaceDashes l2) = false from H l.length l (Nat.le_refl _) h
  clear h l
  intro n
  induction n with
  | zero =>
    intro l2 hl h
    have h0 : l2 = [] := List.eq_nil_of_length_eq_zero (Nat.le_zero.mp hl)
    subst h0
    rfl
  | succ n ih =>
    intro l2 hl h
    cases l2 with
    | nil => rfl
    | cons x rest =>
      simp only [List.length_cons] at hl
      rcases rest with _ | ⟨y, rest1⟩
      · exact h
      rcases rest1 with _ | ⟨z, rest2⟩
      · rw [sd_two]
        exact h
      simp only [List.length_cons] at hl
      obtain ⟨hpreX, hY⟩ := containsTok_cons_false h
      obtain ⟨hpreY, hZ⟩ := containsTok_cons_false hY
      by_cases hd : y = '-'
      · subst hd
        by_cases hx : x ≠ ' ' ∧ z ≠ ' '
        · rw [sd_pos x z rest2 hx.1 hx.2]
          show (('n' == x) && false || containsTok noonPat (z :: spaceDashes rest2)) = false
          rw [Bool.and_false, Bool.false_or, containsTok_cons]
          obtain ⟨hpreZ, hR2⟩ := containsTok_cons_false hZ
          rw [ih rest2 (by omega) hR2, Bool.or_false]
          cases hpre : noonPat.isPrefixOf (z :: spaceDashes rest2) with
          | false => rfl
          | true =>
            exfalso
            have h2 : ('n' == z && ['o', 'o', 'n'].isPrefixOf (spaceDashes rest2)) = true := hpre
            obtain ⟨h3, h4⟩ := Bool.and_eq_true_iff.mp h2
            have h5 : noonPat.isPrefixOf (z :: rest2) = true := by
              show ('n' == z && ['o', 'o', 'n'].isPrefixOf rest2) = true
              exact Bool.and_eq_true_iff.mpr ⟨h3, sd_pre_oon rest2 h4⟩
            rw [h5] at hpreZ
            exact Bool.noConfusion hpreZ
        · rw [sd_neg x z rest2 hx, containsTok_cons]
          rw [ih ('-' :: z :: rest2) (by simp; omega) hY, Bool.or_false]
          cases hpre : noonPat.isPrefixOf (x :: spaceDashes ('-' :: z :: rest2)) with
          | false => rfl
          | true =>
            exfalso
            have h2 : ('n' == x
                && ['o', 'o', 'n'].isPrefixOf (spaceDashes ('-' :: z :: rest2))) = true := hpre
            obtain ⟨h3, h4⟩ := Bool.and_eq_true_iff.mp h2
            exact Bool.noConfusion (sd_pre_oon _ h4)
      · rw [sd_short2 x y hd (z :: rest2), containsTok_cons]
        rw [ih (y :: z :: rest2) (by simp; omega) hY, Bool.or_false]
        cases hpre : noonPat.isPrefixOf (x :: spaceDashes (y :: z :: rest2)) with
        | false => rfl
        | true =>
          exfalso
          have h2 : ('n' == x
              && ['o', 'o', 'n'].isPrefixOf (spaceDashes (y :: z :: rest2))) = true := hpre
          obtain ⟨h3, h4⟩ := Bool.and_eq_true_iff.mp h2
          have h5 : noonPat.isPrefixOf (x :: y :: z :: rest2) = true := by
            show ('n' == x && ['o', 'o', 'n'].isPrefixOf (y :: z :: rest2)) = true
            exact Bool.and_eq_true_iff.mpr ⟨h3, sd_pre_oon _ h4⟩
          rw [h5] at hpreX
          exact Bool.noConfusion hpreX

/-- Trimming preserves noon-freeness: the trimmed list sits inside the
original. -/
theorem cont_trim_false {pat : List Char} (t : List Char)
    (h : containsTok pat t = false) : containsTok pat (trimChars t) = false := by
  have hm : containsTok pat (t.dropWhile isWs) = false := by
    have hsuf : t.takeWhile isWs ++ t.dropWhile isWs = t :=
      List.takeWhile_append_dropWhile isWs t
    rw [← hsuf] at h
    exact containsTok_false_right h
  have hu : t.dropWhile isWs
      = ((t.dropWhile isWs).reverse.dropWhile isWs).reverse
        ++ ((t.dropWhile isWs).reverse.takeWhile isWs).reverse := by
    have h2 : (t.dropWhile isWs).reverse.takeWhile isWs
        ++ (t.dropWhile isWs).reverse.dropWhile isWs = (t.dropWhile isWs).reverse :=
      List.takeWhile_append_dropWhile isWs (t.dropWhile isWs).reverse
    calc t.dropWhile isWs = (t.dropWhile isWs).reverse.reverse :=
          (List.reverse_reverse _).symm
      _ = ((t.dropWhile isWs).reverse.takeWhile isWs
            ++ (t.dropWhile isWs).reverse.dropWhile isWs).reverse := by rw [h2]
      _ = ((t.dropWhile isWs).reverse.dropWhile isWs).reverse
            ++ ((t.dropWhile isWs).reverse.takeWhile isWs).reverse :=
          List.reverse_append _ _
  rw [hu] at hm
  exact containsTok_false_left hm

/-- Every token the keep-separators splitter emits is noon-free when the
text being split is: the pieces are blocks of the input, the separators are
commas and newline runs. The invariants say what is known of the pending
piece and newline run in each mode. -/
theorem skGo_noonFree (l : List Char) :
    ∀ piece run : List Char,
    (∀ c ∈ run, c = '\n') →
    (run = [] → containsTok noonPat (piece.reverse ++ l) = false) →
    (run ≠ [] → containsTok noonPat piece.reverse = false
      ∧ containsTok noonPat l = false) →
    ∀ tok ∈ skGo piece run l, containsTok noonPat tok = false := by
  induction l with
  | nil =>
    intro piece run hrun h1 h2 tok htok
    by_cases hre : run = []
    · subst hre
      have hdef : skGo piece [] [] = [piece.reverse] := rfl
      rw [hdef] at htok
      rw [List.mem_singleton.mp htok]
      have hh := h1 rfl
      rwa [List.append_nil] at hh
    · have hemp : run.isEmpty = false := by
        cases run with
        | nil => exact absurd rfl hre
        | cons a b => rfl
      have hdef : skGo piece run [] =
          if run.isEmpty then [piece.reverse] else [piece.reverse, run.reverse, []] := rfl
      rw [hdef, hemp] at htok
      obtain ⟨hp, _⟩ := h2 hre
      rcases List.mem_cons.mp htok with h3 | htok2
      · rw [h3]; exact hp
      rcases List.mem_cons.mp htok2 with h4 | htok3
      · rw [h4]
        refine cont_noon_of_no_n _ (fun c hc => ?_)
        have := hrun c (List.mem_reverse.mp hc)
        rw [this]
        decide
      · rw [List.mem_singleton.mp htok3]
        rfl
  | cons c rest ih =>
    intro piece run hrun h1 h2 tok htok
    have hdef : skGo piece run (c :: rest) =
        (if c = '\n' then skGo piece ('\n' :: run) rest
         else if run.isEmpty then
           if c = ',' then piece.reverse :: [','] :: skGo [] [] rest
           else skGo (c :: piece) run rest
         else
           if c = ',' then piece.reverse :: run.reverse :: [] :: [','] :: skGo [] [] rest
           else piece.reverse :: run.reverse :: skGo [c] [] rest) := rfl
    rw [hdef] at htok
    by_cases hc : c = '\n'
    · rw [if_pos hc] at htok
      refine ih piece ('\n' :: run) ?_ ?_ ?_ tok htok
      · intro c2 hc2
        rcases List.mem_cons.mp hc2 with h3 | h3
        · exact h3
        · exact hrun c2 h3
      · intro hcon
        exact List.noConfusion hcon
      · intro _
        by_cases hre : run = []
        · have hh := h1 hre
          constructor
          · exact containsTok_false_left hh
          · exact (containsTok_cons_false (containsTok_false_right hh)).2
        · obtain ⟨hp2, hl2⟩ := h2 hre
          exact ⟨hp2, (containsTok_cons_false hl2).2⟩
    · rw [if_neg hc] at htok
      by_cases hre : run.isEmpty = true
      · have hrnil : run = [] := List.isEmpty_iff.mp hre
        rw [if_pos hre] at htok
        have hh := h1 hrnil
        by_cases hcm : c = ','
        · rw [if_pos hcm] at htok
          rcases List.mem_cons.mp htok with h3 | htok2
          · rw [h3]; exact containsTok_false_left hh
          rcases List.mem_cons.mp htok2 with h4 | htok3
          · rw [h4]; decide
          · refine ih [] [] (fun c2 hc2 => absurd hc2 (List.not_mem_nil c2)) ?_
              (fun hcon => absurd rfl hcon) tok htok3
            intro _
            rw [List.reverse_nil, List.nil_append]
            exact (containsTok_cons_false (containsTok_false_right hh)).2
        · rw [if_neg hcm] at htok
          refine ih (c :: piece) run hrun ?_ ?_ tok htok
          · intro _
            rw [List.reverse_cons, List.append_assoc, List.singleton_append]
            exact hh
          · intro hcon
            exact absurd hrnil hcon
      · rw [if_neg hre] at htok
        have hrne : run ≠ [] := fun hx => hre (by rw [hx]; rfl)
        obtain ⟨hp2, hl2⟩ := h2 hrne
        obtain ⟨_, hrest2⟩ := containsTok_cons_false hl2
        have hnlrun : containsTok noonPat run.reverse = false := by
          refine cont_noon_of_no_n _ (fun c2 hc2 => ?_)
          have := hrun c2 (List.mem_reverse.mp hc2)
          rw [this]
          decide
        by_cases hcm : c = ','
        · rw [if_pos hcm] at htok
          rcases List.mem_cons.mp htok with h3 | htok2
          · rw [h3]; exact hp2
          rcases List.mem_cons.mp htok2 with h4 | htok3
          · rw [h4]; exact hnlrun
          rcases List.mem_cons.mp htok3 with h5 | htok4
          · rw [h5]; rfl
          rcases List.mem_cons.mp htok4 with h6 | htok5
          · rw [h6]; decide
          · refine ih [] [] (fun c2 hc2 => absurd hc2 (List.not_mem_nil c2)) ?_
              (fun hcon => absurd rfl hcon) tok htok5
            intro _
            rw [List.reverse_nil, List.nil_append]
            exact hrest2
        · rw [if_neg hcm] at htok
          rcases List.mem_cons.mp htok with h3 | htok2
          · rw [h3]; exact hp2
          rcases List.mem_cons.mp htok2 with h4 | htok3
          · rw [h4]; exact hnlrun
          · refine ih [c] [] (fun c2 hc2 => absurd hc2 (List.not_mem_nil c2)) ?_
              (fun hcon => absurd rfl hcon) tok htok3
            intro _
            show containsTok noonPat ([c] ++ rest) = false
            rw [List.singleton_append]
            exact hl2

/-- The normalized cell text contains no noon: lowercasing happens before
the replacement, the replacement removes every occurrence, and neither the
en dash fix nor the dash spacing can produce one. -/
theorem normalize_noonFree (s : String) :
    containsTok noonPat (normalizeText s) = false :=
  sd_noonFree _ (em_noonFree _ (rn_noonFree _))

/-- Claim C8 amended and proved: no token the Time Token Parser outputs, or
even any trimmed candidate, contains noon; and whenever a candidate both
survives the leading-integer filter and contains 12 pm, the output contains
a token with 12 pm. The unconditional half of the original claim fails only
because a noon-bearing candidate can be dropped by the integer filter, as
the counterexample shows. -/
theorem C8_amended (s : String) :
    (∀ tok ∈ parseTokens s, containsTok noonPat tok.data = false)
    ∧ (∀ tok ∈ tokenCandidates s, (parseIntLead tok.data).isSome →
        containsTok twelvePmPat tok.data = true →
        ∃ u ∈ parseTokens s, containsTok twelvePmPat u.data = true) := by
  constructor
  · intro tok htok
    have htok2 : tok ∈ tokenCandidates s := List.mem_of_mem_filter htok
    unfold tokenCandidates at htok2
    rcases List.mem_map.mp htok2 with ⟨t0, ht0, hte⟩
    have hdata : tok.data = trimChars t0 := by
      rw [← hte]
    rw [hdata]
    refine cont_trim_false t0 ?_
    refine skGo_noonFree (normalizeText s) [] [] ?_ ?_ ?_ t0 ht0
    · intro c2 hc2
      exact absurd hc2 (List.not_mem_nil c2)
    · intro _
      rw [List.reverse_nil, List.nil_append]
      exact normalize_noonFree s
    · intro hcon
      exact absurd rfl hcon
  · intro tok htok hint h12
    exact ⟨tok, List.mem_filter.mpr ⟨htok, hint⟩, h12⟩

/-- Witness for C8_amended at the cell text noon, whose single output token
is 12 pm. -/
theorem C8_witness :
    containsTok noonPat "12 pm".data = false
    ∧ ∃ u ∈ parseTokens "noon", containsTok twelvePmPat u.data = true :=
  ⟨(C8_amended "noon").1 "12 pm" (by decide),
   (C8_amended "noon").2 "12 pm" (by decide) (by decide) (by decide)⟩

end Scrape
